import Mathlib

set_option maxRecDepth 100000

/-!
Verification of the deduplication engine of the funded-companies scraper
(src/utils/deduplication.py).

The engine's functions are embedded as executable Lean definitions:
name normalization (`_normalize_company_name`), the similarity scorer
(`_calculate_similarity`, whose fuzzy core `fuzz.token_sort_ratio` comes
from the external rapidfuzz library and is therefore modelled from the
specification's formula), greedy seed-anchored grouping
(`_group_similar_companies`), group merging (`_merge_company_group`),
the orchestrator (`deduplicate_companies`) and the statistics query
(`get_dedup_stats`).

Python dictionaries with optional keys are modelled as a structure with
`Option` fields (`none` = key absent or `None`).  Python truthiness of
strings and integers is modelled by `strTruthy` / `intTruthy`.  String
manipulation is carried out on `List Char` with structural recursion so
that every definition evaluates inside the kernel.
-/

namespace Dedup

/-- Company record as handled by src/utils/deduplication.py.  Only the
keys that the deduplication module reads or writes are modelled; all
remaining raw-record keys (amount_sold, founding_year, executives, ...)
are copied verbatim from the head record by `dict.copy()` and never
inspected, so they are omitted from the shallow embedding.  A field
value `none` models both a missing key and an explicit Python `None`;
`investors` uses `[]` for a missing key, matching the code's
`get("investors", [])` default.  `sources` is absent (`none`) on raw
records and is set by the merge step. -/
structure Company where
  company_name : Option String
  company_website : Option String
  description : Option String
  investors : List String
  funding_round : Option String
  industry : Option String
  location : Option String
  ceo_name : Option String
  funding_amount : Option Int
  source : Option String
  sources : Option (List String)
deriving DecidableEq

/-- Record with every key missing; concrete records in the development
are built from it by record update. -/
def blankCompany : Company :=
  { company_name := none, company_website := none, description := none,
    investors := [], funding_round := none, industry := none,
    location := none, ceo_name := none, funding_amount := none,
    source := none, sources := none }

/-- Python truthiness of an optional string: `None`, a missing key and
the empty string are falsy. -/
def strTruthy : Option String → Bool
  | none => false
  | some s => s != ""

/-- Python truthiness of an optional integer: `None`, a missing key and
`0` are falsy. -/
def intTruthy : Option Int → Bool
  | none => false
  | some n => n != 0

/-! ### Character-list string utilities

Python string primitives used by deduplication.py, implemented over
`List Char` by structural recursion so the kernel can evaluate them. -/

/-- Python `str.lower()` (ASCII range; the records under test are ASCII). -/
def lowerL (l : List Char) : List Char := l.map Char.toLower

/-- Python `str.strip()`: drop leading and trailing whitespace. -/
def trimL (l : List Char) : List Char :=
  ((l.dropWhile Char.isWhitespace).reverse.dropWhile Char.isWhitespace).reverse

/-- Whether the char list `s` ends with the char list `v`. -/
def endsWithL (s v : List Char) : Bool :=
  decide (v.length ≤ s.length) && decide (s.drop (s.length - v.length) = v)

/-- Drop the last `n` characters. -/
def dropRightL (s : List Char) (n : Nat) : List Char := s.take (s.length - n)

/-- Remove one trailing occurrence of the separator regex fragment
r"\s*,?\s*" (whitespace, at most one comma, whitespace) from the end of
the string.  This is what a company-suffix substitution leaves to erase
once the literal suffix itself has been dropped. -/
def stripSepBack (s : List Char) : List Char :=
  let r1 := s.reverse.dropWhile Char.isWhitespace
  let r2 := match r1 with
    | ',' :: rest => rest
    | _ => r1
  (r2.dropWhile Char.isWhitespace).reverse

/-- Split on whitespace runs, dropping empty tokens — the tokenization
used both by whitespace collapsing and by the token-sort scorer.
`cur` accumulates the current token in reverse. -/
def splitWsAux : List Char → List Char → List (List Char)
  | [], cur => if cur.isEmpty then [] else [cur.reverse]
  | c :: cs, cur =>
      if c.isWhitespace then
        if cur.isEmpty then splitWsAux cs [] else cur.reverse :: splitWsAux cs []
      else splitWsAux cs (c :: cur)

/-- Whitespace tokenization of a char list. -/
def splitWsL (l : List Char) : List (List Char) := splitWsAux l []

/-- Join tokens with single spaces. -/
def joinTokens (ts : List (List Char)) : List Char := List.intercalate [' '] ts

/-! ### Name normalization (deduplication.py lines 72-95) -/

/-- Literal forms matched by each entry of COMPANY_SUFFIXES
(deduplication.py lines 12-31), in source order.  Each regex is
anchored at the end of the string; a core with optional dots is listed
as its dotted/undotted variants, longest first (the regex quantifiers
are greedy). -/
def suffixVariants : List (List String) :=
  [ ["inc.", "inc"],
    ["llc.", "llc"],
    ["ltd.", "ltd"],
    ["corp.", "corp"],
    ["corporation"],
    ["incorporated"],
    ["limited"],
    ["l.l.c.", "l.l.c", "l.lc.", "ll.c.", "l.lc", "ll.c", "llc.", "llc"],
    ["company"],
    ["co.", "co"],
    ["holdings", "holding"],
    ["group"],
    ["partners", "partner"],
    ["ventures", "venture"],
    ["capital"],
    ["fund"],
    ["lp"],
    ["l.p.", "l.p", "lp.", "lp"] ]

/-- Apply one suffix substitution re.sub(r"\s*,?\s*CORE$", "", s): if the
string ends with one of the pattern's literal forms, remove that form
together with the separator run (whitespace, one optional comma,
whitespace) immediately before it. -/
def applySuffixPattern (variants : List String) (s : List Char) : List Char :=
  match variants.find? (fun v => endsWithL s v.data) with
  | some v => stripSepBack (dropRightL s v.data.length)
  | none => s

/-- Embedding of `_normalize_company_name` (deduplication.py lines
72-95): falsy input maps to the empty string; otherwise lowercase,
strip, remove the suffix patterns in order (one substitution each),
remove characters that are neither word characters nor whitespace, and
collapse whitespace runs to single spaces trimming the ends. -/
def _normalize_company_name (name : String) : String :=
  if name = "" then ""
  else
    let n := trimL (lowerL name.data)
    let n := suffixVariants.foldl (fun s pat => applySuffixPattern pat s) n
    let n := n.filter (fun c => c.isAlphanum || c = '_' || c.isWhitespace)
    ⟨joinTokens (splitWsL n)⟩

/-! ### Similarity scorer (deduplication.py lines 140-156)

The fuzzy core, rapidfuzz's fuzz.token_sort_ratio, is an external
library dependency whose code is not part of this repository; it is
modelled from the specification (spec.md section 4.2). -/

/-- One row update of the standard Levenshtein dynamic program: `ys`
and the tail `ps` of the previous row advance together; `diag` is the
entry diagonally above-left, `left` the entry just computed. -/
def levRowAux (x : Char) : List Char → List Nat → Nat → Nat → List Nat
  | [], _, _, _ => []
  | _ :: _, [], _, _ => []
  | y :: ys, p :: ps, diag, left =>
      let cur := min (diag + (if x = y then 0 else 1)) (min (p + 1) (left + 1))
      cur :: levRowAux x ys ps p cur

/-- Next full row of the Levenshtein table for source character `x`. -/
def levRow (x : Char) (ys : List Char) (prev : List Nat) : List Nat :=
  match prev with
  | [] => []
  | p0 :: ps => (p0 + 1) :: levRowAux x ys ps p0 (p0 + 1)

/-- Modelled from the spec: unit-cost Levenshtein edit distance between
two character lists (spec.md section 4.2), computed with the standard
dynamic program so the kernel can evaluate it. -/
def levDist (xs ys : List Char) : Nat :=
  (xs.foldl (fun row x => levRow x ys row) (List.range (ys.length + 1))).getLastD 0

/-- Lexicographic order on char lists, mirroring Python string
comparison by code point. -/
def lexLe : List Char → List Char → Bool
  | [], _ => true
  | _ :: _, [] => false
  | a :: as, b :: bs => if a = b then lexLe as bs else decide (a < b)

/-- Stable insertion of a token into a lexicographically sorted list. -/
def insertTokenL (t : List Char) : List (List Char) → List (List Char)
  | [] => [t]
  | u :: us => if lexLe t u then t :: u :: us else u :: insertTokenL t us

/-- Stable insertion sort of tokens (Python `sorted` is stable; for a
total order such as the lexicographic one the result is the unique
sorted permutation). -/
def sortTokensL : List (List Char) → List (List Char)
  | [] => []
  | t :: ts => insertTokenL t (sortTokensL ts)

/-- Sorted-token-rejoined form of a string: tokenize on whitespace,
sort the tokens lexicographically, rejoin with single spaces. -/
def sortedTokenJoin (s : String) : List Char :=
  joinTokens (sortTokensL (splitWsL s.data))

/-- Modelled from the spec: rapidfuzz's fuzz.token_sort_ratio (an
external library call at deduplication.py line 154, not code of this
repository).  Per spec.md section 4.2 the score is
100 * (1 - dist / (len1 + len2)) on the sorted-token-rejoined forms,
clamped to [0, 100]; it is computed here as a single `mkRat` so that
the kernel can evaluate it (the upper clamp can never fire since the
distance is nonnegative; the lower clamp is the `total < d` branch;
two empty token strings score 100, the value of the formula under the
convention d / 0 = 0). -/
def token_sort_ratio (a b : String) : ℚ :=
  let sa := sortedTokenJoin a
  let sb := sortedTokenJoin b
  let d := levDist sa sb
  let total := sa.length + sb.length
  if total = 0 then 100
  else if total < d then 0
  else mkRat (100 * ((total : Int) - (d : Int))) total

/-- Minimum similarity score for fuzzy matching (deduplication.py
line 34). -/
def FUZZY_MATCH_THRESHOLD : ℚ := 85

/-- Embedding of `_calculate_similarity` (deduplication.py lines
140-156): 0 if either name is falsy (empty), 100 on exact equality,
otherwise the token sort ratio. -/
def _calculate_similarity (name1 name2 : String) : ℚ :=
  if name1 = "" ∨ name2 = "" then 0
  else if name1 = name2 then 100
  else token_sort_ratio name1 name2

/-! ### Grouping (deduplication.py lines 98-137) -/

/-- Normalized-name lookup entry built at deduplication.py lines
106-109. -/
def normNameOf (c : Company) : String :=
  _normalize_company_name (c.company_name.getD "")

/-- Greedy seed-anchored grouping loop (deduplication.py lines
112-135).  The Python loop walks the records by index, keeping a `used`
set: when index i is reached and unused it seeds a new group and
absorbs every later unused j whose similarity to the *seed* reaches the
threshold.  Because every index before the current seed is already
used, the loop is equivalently a recursion over the list of not yet
used entries, splitting off the seed's matches and recursing on the
rest; `fuel` (initially the list length, which never runs out) makes
the recursion structural. -/
def groupLoopAux : Nat → List (String × Company) → List (List Company)
  | _, [] => []
  | 0, _ :: _ => []
  | fuel + 1, (n, c) :: rest =>
      let matched := rest.filter (fun p => decide (FUZZY_MATCH_THRESHOLD ≤ _calculate_similarity n p.1))
      let remaining := rest.filter (fun p => !(decide (FUZZY_MATCH_THRESHOLD ≤ _calculate_similarity n p.1)))
      (c :: matched.map Prod.snd) :: groupLoopAux fuel remaining

/-- Embedding of `_group_similar_companies` (deduplication.py lines
98-137). -/
def _group_similar_companies (companies : List Company) : List (List Company) :=
  match companies with
  | [] => []
  | _ :: _ =>
      groupLoopAux companies.length (companies.map (fun c => (normNameOf c, c)))

/-! ### Group merge (deduplication.py lines 159-232) -/

/-- First-occurrence deduplication of a string list, with `fuel`
(initially the list length) making the filter recursion structural.
This models Python's `list(set(...))` at deduplication.py line 189: the
set has exactly these elements; CPython's iteration order over a hash
set is unspecified, so the canonical first-occurrence order is used —
every claim about `sources` reads it as a set (membership and
cardinality only). -/
def dedupFirstAux : Nat → List String → List String
  | _, [] => []
  | 0, _ :: _ => []
  | fuel + 1, x :: xs => x :: dedupFirstAux fuel (xs.filter (fun y => y ≠ x))

/-- First-occurrence deduplication of a string list. -/
def dedupFirst (l : List String) : List String := dedupFirstAux l.length l

/-- The `all_sources` list of deduplication.py line 189: the distinct
truthy `source` values of the group, in the group's original order. -/
def all_sources (group : List Company) : List String :=
  dedupFirst (group.filterMap (fun c =>
    if strTruthy c.source then some (c.source.getD "") else none))

/-- Source priority table (deduplication.py lines 171-178) with the
dictionary lookup default 999 for unrecognized sources (line 182);
a missing `source` key defaults to `""`, also unrecognized. -/
def source_priority (s : String) : Nat :=
  if s = "SEC Form D" then 0
  else if s = "TechCrunch" then 1
  else if s = "VentureBeat" then 2
  else if s = "CB Insights" then 3
  else if s = "PitchBook" then 4
  else if s = "Founder Collective Portfolio" then 5
  else 999

/-- Sort key of a record, `source_priority.get(x.get("source", ""), 999)`. -/
def priorityOf (c : Company) : Nat := source_priority (c.source.getD "")

/-- Stable insertion of a record into a priority-sorted list: the new
record precedes the first old record of equal or larger key, since it
stood earlier in the original order. -/
def insertByPriority (c : Company) : List Company → List Company
  | [] => [c]
  | d :: ds =>
      if priorityOf c ≤ priorityOf d then c :: d :: ds
      else d :: insertByPriority c ds

/-- Python's `sorted(group, key=...)` (deduplication.py lines 180-183)
is a stable sort; it is modelled by stable insertion sort, which
produces the identical list. -/
def isortByPriority : List Company → List Company
  | [] => []
  | c :: cs => insertByPriority c (isortByPriority cs)

/-- Investor accumulation loop (deduplication.py lines 202-209):
append each truthy (non-empty) investor not yet present, updating the
membership set as the loop runs. -/
def addInvestors : List String → List String → List String
  | cur, [] => cur
  | cur, inv :: rest =>
      if inv ≠ "" ∧ inv ∉ cur then addInvestors (cur ++ [inv]) rest
      else addInvestors cur rest

/-- One iteration of the fill loop of `_merge_company_group`
(deduplication.py lines 193-230) folding record `c` into the running
merged record `m`.  In the source each field's update reads only that
same field of `merged` (plus `company`), so the sequence of in-place
mutations is equivalently a single simultaneous record update.
Field rules: company_website, description, industry, location,
ceo_name and funding_amount are fill-only-if-falsy; investors run
through the accumulation loop (`if new_investors:` is redundant since
an empty list adds nothing); funding_round is replaced only when the
current value is in [Unknown, Equity, None] and the candidate is
truthy and not in [Unknown, None]. -/
def mergeStep (m c : Company) : Company :=
  { m with
    company_website :=
      if !(strTruthy m.company_website) && strTruthy c.company_website
      then c.company_website else m.company_website,
    description :=
      if !(strTruthy m.description) && strTruthy c.description
      then c.description else m.description,
    investors := addInvestors m.investors c.investors,
    funding_round :=
      if (m.funding_round = some "Unknown" ∨ m.funding_round = some "Equity" ∨
            m.funding_round = none) ∧ strTruthy c.funding_round then
        if c.funding_round ≠ some "Unknown" ∧ c.funding_round ≠ none
        then c.funding_round else m.funding_round
      else m.funding_round,
    industry :=
      if !(strTruthy m.industry) && strTruthy c.industry
      then c.industry else m.industry,
    location :=
      if !(strTruthy m.location) && strTruthy c.location
      then c.location else m.location,
    ceo_name :=
      if !(strTruthy m.ceo_name) && strTruthy c.ceo_name
      then c.ceo_name else m.ceo_name,
    funding_amount :=
      if !(intTruthy m.funding_amount) && intTruthy c.funding_amount
      then c.funding_amount else m.funding_amount }

/-- Embedding of `_merge_company_group` (deduplication.py lines
159-232): `None` for an empty group, the record itself for a singleton
group, and otherwise the priority-sorted fold.  The merged record
starts as a copy of the highest-priority record with `sources` set to
the distinct truthy sources of the whole group, then folds the
remaining sorted records through `mergeStep`.  (The branch returning
`none` for a nonempty group whose sort is empty is unreachable:
insertion sort preserves length.) -/
def _merge_company_group : List Company → Option Company
  | [] => none
  | [c] => some c
  | a :: b :: rest =>
      match isortByPriority (a :: b :: rest) with
      | [] => none
      | first :: others =>
          some (others.foldl mergeStep
            { first with sources := some (all_sources (a :: b :: rest)) })

/-! ### Orchestrator and statistics (deduplication.py lines 37-69 and
235-257) -/

/-- Embedding of `deduplicate_companies` (deduplication.py lines
37-69): empty input returns empty; otherwise group, merge each group,
and keep the truthy merge results.  (In Python `if merged:` drops
`None` and empty dictionaries; records reaching the engine always
carry at least a company_name key, so a structure value is never an
empty dictionary and `filterMap` keeps every merged group.) -/
def deduplicate_companies (companies : List Company) : List Company :=
  match companies with
  | [] => []
  | _ :: _ => (_group_similar_companies companies).filterMap _merge_company_group

/-- Result of `get_dedup_stats` (deduplication.py lines 235-257).
The `original_by_source` counting dictionary is modelled as its lookup
function. -/
structure DedupStats where
  original_count : Nat
  deduplicated_count : Nat
  duplicates_removed : Int
  companies_with_merged_sources : Nat
  original_by_source : String → Nat

/-- Embedding of `get_dedup_stats` (deduplication.py lines 235-257).
A record without a `sources` key counts with `len([]) = 0` via the
`get("sources", [])` default. -/
def get_dedup_stats (original deduped : List Company) : DedupStats :=
  { original_count := original.length,
    deduplicated_count := deduped.length,
    duplicates_removed := (original.length : Int) - (deduped.length : Int),
    companies_with_merged_sources :=
      (deduped.filter (fun c => decide (1 < (c.sources.getD []).length))).length,
    original_by_source := fun s =>
      (original.filter (fun c => decide (c.source.getD "Unknown" = s))).length }

/-! ### Helper lemmas -/

theorem dedupFirstAux_fuel_irrel :
    ∀ (f1 f2 : Nat) (l : List String), l.length ≤ f1 → l.length ≤ f2 →
      dedupFirstAux f1 l = dedupFirstAux f2 l := by
  intro f1
  induction f1 with
  | zero =>
      intro f2 l h1 _
      have : l = [] := List.eq_nil_of_length_eq_zero (Nat.le_zero.mp h1)
      subst this
      cases f2 <;> rfl
  | succ f ih =>
      intro f2 l h1 h2
      cases l with
      | nil => cases f2 <;> rfl
      | cons x xs =>
          cases f2 with
          | zero => exact absurd h2 (by simp)
          | succ f2' =>
              simp only [dedupFirstAux]
              have hlen := List.length_filter_le (fun y => decide (y ≠ x)) xs
              have hx1 : (xs.filter (fun y => y ≠ x)).length ≤ f :=
                le_trans hlen (Nat.le_of_succ_le_succ (by simpa using h1))
              have hx2 : (xs.filter (fun y => y ≠ x)).length ≤ f2' :=
                le_trans hlen (Nat.le_of_succ_le_succ (by simpa using h2))
              rw [ih f2' _ hx1 hx2]

theorem dedupFirst_nil : dedupFirst [] = [] := rfl

theorem dedupFirst_cons (x : String) (xs : List String) :
    dedupFirst (x :: xs) = x :: dedupFirst (xs.filter (fun y => y ≠ x)) := by
  simp only [dedupFirst, List.length_cons, dedupFirstAux]
  exact congrArg _ (dedupFirstAux_fuel_irrel _ _ _
    (List.length_filter_le _ _) le_rfl)

theorem mem_dedupFirst (l : List String) (a : String) : a ∈ dedupFirst l ↔ a ∈ l := by
  suffices h : ∀ (n : Nat) (l : List String), l.length ≤ n →
      ∀ a, a ∈ dedupFirst l ↔ a ∈ l from h l.length l le_rfl a
  intro n
  induction n with
  | zero =>
      intro l hl a
      have : l = [] := List.eq_nil_of_length_eq_zero (Nat.le_zero.mp hl)
      subst this
      simp [dedupFirst_nil]
  | succ n ih =>
      intro l hl a
      cases l with
      | nil => simp [dedupFirst_nil]
      | cons x xs =>
          rw [dedupFirst_cons]
          have hlt : (xs.filter (fun y => y ≠ x)).length ≤ n :=
            le_trans (List.length_filter_le _ _) (Nat.le_of_succ_le_succ (by simpa using hl))
          rw [List.mem_cons, ih _ hlt a]
          by_cases hax : a = x
          · simp [hax]
          · simp [hax, List.mem_filter]

theorem nodup_dedupFirst (l : List String) : (dedupFirst l).Nodup := by
  suffices h : ∀ (n : Nat) (l : List String), l.length ≤ n → (dedupFirst l).Nodup from
    h l.length l le_rfl
  intro n
  induction n with
  | zero =>
      intro l hl
      have : l = [] := List.eq_nil_of_length_eq_zero (Nat.le_zero.mp hl)
      subst this
      simp [dedupFirst_nil]
  | succ n ih =>
      intro l hl
      cases l with
      | nil => simp [dedupFirst_nil]
      | cons x xs =>
          rw [dedupFirst_cons]
          have hlt : (xs.filter (fun y => y ≠ x)).length ≤ n :=
            le_trans (List.length_filter_le _ _) (Nat.le_of_succ_le_succ (by simpa using hl))
          refine List.nodup_cons.mpr ⟨?_, ih _ hlt⟩
          intro hx
          have := (mem_dedupFirst _ _).mp hx
          simp [List.mem_filter] at this

theorem dedupFirst_eq_self (l : List String) (hnd : l.Nodup) : dedupFirst l = l := by
  induction l with
  | nil => rfl
  | cons x xs ih =>
      rw [dedupFirst_cons]
      rcases List.nodup_cons.mp hnd with ⟨hx, hxs⟩
      have hfe : xs.filter (fun y => y ≠ x) = xs := by
        refine List.filter_eq_self.mpr ?_
        intro a ha
        simp only [decide_eq_true_eq]
        exact fun h => hx (h ▸ ha)
      rw [hfe, ih hxs]

theorem token_sort_ratio_eq_clamped (a b : String) :
    token_sort_ratio a b =
      max 0 (min 100 (100 * (1 - (levDist (sortedTokenJoin a) (sortedTokenJoin b) : ℚ) /
        (((sortedTokenJoin a).length + (sortedTokenJoin b).length : Nat) : ℚ)))) := by
  simp only [token_sort_ratio]
  set d := levDist (sortedTokenJoin a) (sortedTokenJoin b) with hd
  set t := (sortedTokenJoin a).length + (sortedTokenJoin b).length with ht
  by_cases h0 : t = 0
  · rw [if_pos h0, h0]
    norm_num
  · rw [if_neg h0]
    have htq : ((t : ℚ)) ≠ 0 := Nat.cast_ne_zero.mpr h0
    have htpos : (0 : ℚ) < t := by positivity
    by_cases hlt : t < d
    · rw [if_pos hlt]
      have h1 : (1 : ℚ) < (d : ℚ) / t := by
        rw [lt_div_iff₀ htpos]
        exact_mod_cast by simpa using hlt
      have hneg : 100 * (1 - (d : ℚ) / t) < 0 := by nlinarith
      rw [min_eq_right (le_trans (le_of_lt hneg) (by norm_num)),
        max_eq_left (le_of_lt hneg)]
    · rw [if_neg hlt]
      have hdt : d ≤ t := Nat.le_of_not_lt hlt
      rw [Rat.mkRat_eq_div]
      have hle : (d : ℚ) / t ≤ 1 := by
        rw [div_le_one htpos]
        exact_mod_cast hdt
      have hnn : (0 : ℚ) ≤ (d : ℚ) / t := by positivity
      have h1 : (0 : ℚ) ≤ 100 * (1 - (d : ℚ) / t) := by nlinarith
      have h2 : (100 : ℚ) * (1 - (d : ℚ) / t) ≤ 100 := by nlinarith
      rw [min_eq_right h2, max_eq_right h1]
      push_cast
      field_simp

theorem calculate_similarity_left_empty (x : String) : _calculate_similarity "" x = 0 := by
  simp [_calculate_similarity]

theorem calculate_similarity_right_empty (x : String) : _calculate_similarity x "" = 0 := by
  simp [_calculate_similarity]

/-! ### Stable-sort lemmas -/

theorem length_insertByPriority (c : Company) (l : List Company) :
    (insertByPriority c l).length = l.length + 1 := by
  induction l with
  | nil => rfl
  | cons d ds ih =>
      simp only [insertByPriority]
      split
      · simp
      · simp [ih]

theorem length_isortByPriority (l : List Company) :
    (isortByPriority l).length = l.length := by
  induction l with
  | nil => rfl
  | cons c cs ih => simp [isortByPriority, length_insertByPriority, ih]

theorem mem_insertByPriority (x c : Company) (l : List Company) :
    x ∈ insertByPriority c l ↔ x = c ∨ x ∈ l := by
  induction l with
  | nil => simp [insertByPriority]
  | cons d ds ih =>
      simp only [insertByPriority]
      split
      · simp [List.mem_cons]
      · rw [List.mem_cons, ih, List.mem_cons]
        tauto

theorem mem_isortByPriority (x : Company) (l : List Company) :
    x ∈ isortByPriority l ↔ x ∈ l := by
  induction l with
  | nil => simp [isortByPriority]
  | cons c cs ih => rw [isortByPriority, mem_insertByPriority, ih, List.mem_cons]

theorem isort_head_first_min :
    ∀ (g : List Company) (c : Company) (t : List Company),
      isortByPriority g = c :: t →
      ∃ pre post, g = pre ++ c :: post ∧ (∀ d ∈ g, priorityOf c ≤ priorityOf d) ∧
        ∀ d ∈ pre, priorityOf c < priorityOf d := by
  intro g
  induction g with
  | nil => intro c t h; simp [isortByPriority] at h
  | cons x xs ih =>
      intro c t h
      simp only [isortByPriority] at h
      cases hxs : isortByPriority xs with
      | nil =>
          rw [hxs] at h
          have hxsnil : xs = [] := by
            have hlen := length_isortByPriority xs
            rw [hxs] at hlen
            exact List.eq_nil_of_length_eq_zero hlen.symm
          simp only [insertByPriority] at h
          rcases List.cons.inj h with ⟨rfl, rfl⟩
          subst hxsnil
          refine ⟨[], [], rfl, ?_, by simp⟩
          intro d hd
          rcases List.mem_singleton.mp hd with rfl
          exact le_rfl
      | cons cFst tl =>
          rw [hxs] at h
          obtain ⟨pre', post', hdec, hmin, hpre⟩ := ih cFst tl hxs
          simp only [insertByPriority] at h
          by_cases hle : priorityOf x ≤ priorityOf cFst
          · rw [if_pos hle] at h
            rcases List.cons.inj h with ⟨rfl, rfl⟩
            refine ⟨[], xs, rfl, ?_, by simp⟩
            intro d hd
            rcases List.mem_cons.mp hd with rfl | hdxs
            · exact le_rfl
            · exact le_trans hle (hmin d hdxs)
          · rw [if_neg hle] at h
            rcases List.cons.inj h with ⟨rfl, rfl⟩
            refine ⟨x :: pre', post', by rw [hdec]; rfl, ?_, ?_⟩
            · intro d hd
              rcases List.mem_cons.mp hd with rfl | hdxs
              · exact le_of_lt (lt_of_not_le hle)
              · exact hmin d hdxs
            · intro d hd
              rcases List.mem_cons.mp hd with rfl | hdpre
              · exact lt_of_not_le hle
              · exact hpre d hdpre

/-! ### Merge-step and fold lemmas -/

theorem mergeStep_company_name (m c : Company) :
    (mergeStep m c).company_name = m.company_name := rfl

theorem mergeStep_source (m c : Company) : (mergeStep m c).source = m.source := rfl

theorem mergeStep_sources (m c : Company) : (mergeStep m c).sources = m.sources := rfl

theorem mergeStep_investors (m c : Company) :
    (mergeStep m c).investors = addInvestors m.investors c.investors := rfl

theorem foldl_mergeStep_company_name (l : List Company) (m : Company) :
    (l.foldl mergeStep m).company_name = m.company_name := by
  induction l generalizing m with
  | nil => rfl
  | cons c cs ih => rw [List.foldl_cons, ih, mergeStep_company_name]

theorem foldl_mergeStep_sources (l : List Company) (m : Company) :
    (l.foldl mergeStep m).sources = m.sources := by
  induction l generalizing m with
  | nil => rfl
  | cons c cs ih => rw [List.foldl_cons, ih, mergeStep_sources]

theorem addInvestors_append (cur l1 l2 : List String) :
    addInvestors cur (l1 ++ l2) = addInvestors (addInvestors cur l1) l2 := by
  induction l1 generalizing cur with
  | nil => rfl
  | cons inv rest ih =>
      simp only [List.cons_append, addInvestors]
      split
      · exact ih _
      · exact ih _

theorem foldl_mergeStep_investors (l : List Company) (m : Company) :
    (l.foldl mergeStep m).investors =
      addInvestors m.investors ((l.map Company.investors).flatten) := by
  induction l generalizing m with
  | nil => rfl
  | cons c cs ih =>
      rw [List.foldl_cons, ih, mergeStep_investors, List.map_cons, List.flatten_cons,
        addInvestors_append]

theorem merge_multi_eq (a b : Company) (rest : List Company) :
    ∃ first others, isortByPriority (a :: b :: rest) = first :: others ∧
      _merge_company_group (a :: b :: rest) =
        some (others.foldl mergeStep
          { first with sources := some (all_sources (a :: b :: rest)) }) := by
  cases h : isortByPriority (a :: b :: rest) with
  | nil =>
      exfalso
      have hlen := length_isortByPriority (a :: b :: rest)
      rw [h] at hlen
      simp at hlen
  | cons first others =>
      refine ⟨first, others, rfl, ?_⟩
      simp only [_merge_company_group]
      rw [h]

theorem merge_multi_sources (a b : Company) (rest : List Company) (m : Company)
    (h : _merge_company_group (a :: b :: rest) = some m) :
    m.sources = some (all_sources (a :: b :: rest)) := by
  obtain ⟨first, others, _, heq⟩ := merge_multi_eq a b rest
  rw [heq] at h
  rcases Option.some.inj h with rfl
  rw [foldl_mergeStep_sources]

theorem addInvestors_cons_head (x : String) (cur L : List String) :
    addInvestors (x :: cur) L = x :: addInvestors cur (L.filter (fun y => y ≠ x)) := by
  induction L generalizing cur with
  | nil => rfl
  | cons inv rest ih =>
      by_cases hx : inv = x
      · subst hx
        have hnotin : ¬(inv ≠ "" ∧ inv ∉ inv :: cur) := by
          intro hcl
          exact hcl.2 (List.mem_cons_self _ _)
        rw [List.filter_cons_of_neg (by simp)]
        simp only [addInvestors]
        rw [if_neg hnotin, ih]
      · rw [List.filter_cons_of_pos (by simpa using hx)]
        by_cases hnew : inv ≠ "" ∧ inv ∉ cur
        · have hl : inv ≠ "" ∧ inv ∉ x :: cur := by
            refine ⟨hnew.1, ?_⟩
            rw [List.mem_cons]
            rintro (rfl | hmem)
            · exact hx rfl
            · exact hnew.2 hmem
          simp only [addInvestors]
          rw [if_pos hl, if_pos hnew, List.cons_append]
          exact ih _
        · have hl : ¬(inv ≠ "" ∧ inv ∉ x :: cur) := by
            intro hcl
            refine hnew ⟨hcl.1, fun hmem => hcl.2 (List.mem_cons_of_mem _ hmem)⟩
          simp only [addInvestors]
          rw [if_neg hl, if_neg hnew, ih]

theorem addInvestors_nil_eq (L : List String) (hL : "" ∉ L) :
    addInvestors [] L = dedupFirst L := by
  suffices h : ∀ (n : Nat) (L : List String), L.length ≤ n → "" ∉ L →
      addInvestors [] L = dedupFirst L from h L.length L le_rfl hL
  intro n
  induction n with
  | zero =>
      intro L hl _
      have : L = [] := List.eq_nil_of_length_eq_zero (Nat.le_zero.mp hl)
      subst this
      rfl
  | succ n ih =>
      intro L hl hLe
      cases L with
      | nil => rfl
      | cons inv rest =>
          have hinv : inv ≠ "" := by
            intro h
            exact hLe (h ▸ List.mem_cons_self _ _)
          simp only [addInvestors]
          rw [if_pos ⟨hinv, List.not_mem_nil inv⟩, List.nil_append,
            addInvestors_cons_head, dedupFirst_cons]
          have hlen : (rest.filter (fun y => y ≠ inv)).length ≤ n :=
            le_trans (List.length_filter_le _ _) (Nat.le_of_succ_le_succ (by simpa using hl))
          have hrest : "" ∉ rest.filter (fun y => y ≠ inv) := by
            intro h
            exact hLe (List.mem_cons_of_mem _ (List.mem_filter.mp h).1)
          rw [ih _ hlen hrest]

theorem addInvestors_eq_dedupFirst (cur L : List String) (hnd : cur.Nodup)
    (hcur : "" ∉ cur) (hL : "" ∉ L) :
    addInvestors cur L = dedupFirst (cur ++ L) := by
  induction cur generalizing L with
  | nil => simpa using addInvestors_nil_eq L hL
  | cons x cur ih =>
      rcases List.nodup_cons.mp hnd with ⟨hx, hnd'⟩
      have hcur' : "" ∉ cur := fun h => hcur (List.mem_cons_of_mem _ h)
      have hLf : "" ∉ L.filter (fun y => y ≠ x) := by
        intro h
        exact hL (List.mem_filter.mp h).1
      rw [addInvestors_cons_head, ih _ hnd' hcur' hLf, List.cons_append,
        dedupFirst_cons, List.filter_append]
      have hfe : cur.filter (fun y => y ≠ x) = cur := by
        refine List.filter_eq_self.mpr ?_
        intro a ha
        simp only [decide_eq_true_eq]
        exact fun h => hx (h ▸ ha)
      rw [hfe]

/-! ### Grouping-loop lemmas -/

theorem groupLoopAux_mem_pairs :
    ∀ (fuel : Nat) (l : List (String × Company)) (g : List Company) (c : Company),
      g ∈ groupLoopAux fuel l → c ∈ g → ∃ n, (n, c) ∈ l := by
  intro fuel
  induction fuel with
  | zero =>
      intro l g c hg _
      cases l with
      | nil => simp [groupLoopAux] at hg
      | cons p rest => simp [groupLoopAux] at hg
  | succ fuel ih =>
      intro l g c hg hc
      cases l with
      | nil => simp [groupLoopAux] at hg
      | cons p rest =>
          obtain ⟨n0, c0⟩ := p
          simp only [groupLoopAux, List.mem_cons] at hg
          rcases hg with rfl | hg
          · rcases List.mem_cons.mp hc with rfl | hc
            · exact ⟨n0, List.mem_cons_self _ _⟩
            · obtain ⟨q, hq, rfl⟩ := List.mem_map.mp hc
              exact ⟨q.1, List.mem_cons_of_mem _ (List.mem_filter.mp hq).1⟩
          · obtain ⟨n, hn⟩ := ih _ g c hg hc
            exact ⟨n, List.mem_cons_of_mem _ (List.mem_filter.mp hn).1⟩

theorem groupLoopAux_ne_nil :
    ∀ (fuel : Nat) (l : List (String × Company)) (g : List Company),
      g ∈ groupLoopAux fuel l → g ≠ [] := by
  intro fuel
  induction fuel with
  | zero =>
      intro l g hg
      cases l with
      | nil => simp [groupLoopAux] at hg
      | cons p rest => simp [groupLoopAux] at hg
  | succ fuel ih =>
      intro l g hg
      cases l with
      | nil => simp [groupLoopAux] at hg
      | cons p rest =>
          obtain ⟨n0, c0⟩ := p
          simp only [groupLoopAux, List.mem_cons] at hg
          rcases hg with rfl | hg
          · simp
          · exact ih _ g hg

theorem groupLoopAux_empty_singleton :
    ∀ (fuel : Nat) (l : List (String × Company)),
      (∀ p ∈ l, p.1 = normNameOf p.2) →
      ∀ g ∈ groupLoopAux fuel l, ∀ r ∈ g, normNameOf r = "" → g = [r] := by
  intro fuel
  induction fuel with
  | zero =>
      intro l _ g hg
      cases l with
      | nil => simp [groupLoopAux] at hg
      | cons p rest => simp [groupLoopAux] at hg
  | succ fuel ih =>
      intro l hinv g hg r hr hnorm
      cases l with
      | nil => simp [groupLoopAux] at hg
      | cons p rest =>
          obtain ⟨n0, c0⟩ := p
          simp only [groupLoopAux, List.mem_cons] at hg
          rcases hg with rfl | hg
          · rcases List.mem_cons.mp hr with rfl | hr
            · have hn0 : n0 = "" := by
                have := hinv (n0, r) (List.mem_cons_self _ _)
                simpa [hnorm] using this
              have hfilter :
                  rest.filter (fun p =>
                    decide (FUZZY_MATCH_THRESHOLD ≤ _calculate_similarity n0 p.1)) = [] := by
                refine List.filter_eq_nil_iff.mpr ?_
                intro q _
                rw [hn0, calculate_similarity_left_empty]
                simp [FUZZY_MATCH_THRESHOLD]
              rw [hfilter]
              rfl
            · exfalso
              obtain ⟨q, hq, rfl⟩ := List.mem_map.mp hr
              rcases List.mem_filter.mp hq with ⟨hqrest, hqsim⟩
              have hq1 : q.1 = "" := by
                rw [hinv q (List.mem_cons_of_mem _ hqrest)]
                exact hnorm
              rw [hq1, calculate_similarity_right_empty] at hqsim
              rw [FUZZY_MATCH_THRESHOLD] at hqsim
              norm_num at hqsim
          · refine ih _ ?_ g hg r hr hnorm
            intro q hq
            exact hinv q (List.mem_cons_of_mem _ (List.mem_filter.mp hq).1)

theorem groupLoopAux_nil_eq (fuel : Nat) : groupLoopAux fuel [] = [] := by
  cases fuel <;> rfl

theorem groupLoopAux_cons_eq (fuel : Nat) (n : String) (c : Company)
    (rest : List (String × Company)) :
    groupLoopAux (fuel + 1) ((n, c) :: rest) =
      (c :: (rest.filter (fun p =>
          decide (FUZZY_MATCH_THRESHOLD ≤ _calculate_similarity n p.1))).map Prod.snd)
        :: groupLoopAux fuel (rest.filter (fun p =>
          !(decide (FUZZY_MATCH_THRESHOLD ≤ _calculate_similarity n p.1)))) := rfl

/-! ### Claim theorems -/

/-- C1: for records [A, B, C] in this order with similarity(A,B) >= 85,
similarity(B,C) >= 85 and similarity(A,C) < 85 (similarity taken on
normalized names), grouping yields exactly the two groups [A, B] and
[C]: C does not join A's group even though it matches member B, because
membership is decided only against the group's seed record. -/
theorem C1_seed_anchored_grouping (A B C : Company)
    (hAB : 85 ≤ _calculate_similarity (normNameOf A) (normNameOf B))
    (_hBC : 85 ≤ _calculate_similarity (normNameOf B) (normNameOf C))
    (hAC : _calculate_similarity (normNameOf A) (normNameOf C) < 85) :
    _group_similar_companies [A, B, C] = [[A, B], [C]] := by
  have hb : (decide (FUZZY_MATCH_THRESHOLD ≤
      _calculate_similarity (normNameOf A) (normNameOf B))) = true := decide_eq_true hAB
  have hc : (decide (FUZZY_MATCH_THRESHOLD ≤
      _calculate_similarity (normNameOf A) (normNameOf C))) = false :=
    decide_eq_false (not_le.mpr hAC)
  show groupLoopAux (2 + 1)
      [(normNameOf A, A), (normNameOf B, B), (normNameOf C, C)] = [[A, B], [C]]
  rw [groupLoopAux_cons_eq]
  simp only [List.filter_cons, List.filter_nil, hb, hc, Bool.not_true, Bool.not_false,
    if_true, if_false, List.map_cons, List.map_nil]
  show _ :: groupLoopAux (1 + 1) [(normNameOf C, C)] = _
  rw [groupLoopAux_cons_eq]
  simp [groupLoopAux_nil_eq]

def aW1 : Company := { blankCompany with company_name := some "aaaaaaaaaaaaaaaaaaaa" }

def bW1 : Company := { blankCompany with company_name := some "aaaaaaaaaaaaaaaa" }

def cW1 : Company := { blankCompany with company_name := some "aaaaaaaaaaaa" }

/-- Witness for C1 at three concrete records whose normalized names are
runs of 20, 16 and 12 letters: the pairwise scores are 800/9, 600/7 and
75, so the hypotheses hold and the grouping is [[A, B], [C]]. -/
theorem C1_seed_anchored_grouping_witness :
    (85 ≤ _calculate_similarity (normNameOf aW1) (normNameOf bW1))
    ∧ (85 ≤ _calculate_similarity (normNameOf bW1) (normNameOf cW1))
    ∧ (_calculate_similarity (normNameOf aW1) (normNameOf cW1) < 85)
    ∧ _group_similar_companies [aW1, bW1, cW1] = [[aW1, bW1], [cW1]] := by
  have h1 : 85 ≤ _calculate_similarity (normNameOf aW1) (normNameOf bW1) := by decide
  have h2 : 85 ≤ _calculate_similarity (normNameOf bW1) (normNameOf cW1) := by decide
  have h3 : _calculate_similarity (normNameOf aW1) (normNameOf cW1) < 85 := by decide
  exact ⟨h1, h2, h3, C1_seed_anchored_grouping aW1 bW1 cW1 h1 h2 h3⟩

/-- C9: a record whose company_name normalizes to the empty string is
always its own singleton group — it merges with nothing, not even with
another empty-named record, since the similarity of two empty
normalized names is 0 (the either-empty rule precedes the equality
rule). -/
theorem C9_empty_name_singleton :
    (∀ (companies g : List Company) (r : Company),
        g ∈ _group_similar_companies companies → r ∈ g →
        normNameOf r = "" → g = [r])
    ∧ _calculate_similarity "" "" = 0 := by
  refine ⟨?_, by decide⟩
  intro companies g r hg hr hnorm
  cases companies with
  | nil => simp [_group_similar_companies] at hg
  | cons a rest =>
      refine groupLoopAux_empty_singleton _ _ ?_ g hg r hr hnorm
      intro p hp
      obtain ⟨c, _, rfl⟩ := List.mem_map.mp hp
      rfl

def eW9 : Company := { blankCompany with company_name := some "" }

def fW9 : Company := { blankCompany with company_name := some " . " }

/-- Witness for C9: two records whose names normalize to the empty
string (one empty, one made of punctuation and spaces) each form their
own singleton group even though both normalize identically. -/
theorem C9_empty_name_singleton_witness :
    ([eW9] ∈ _group_similar_companies [eW9, fW9] ∧ eW9 ∈ [eW9]
      ∧ normNameOf eW9 = "" ∧ [eW9] = [eW9])
    ∧ ([fW9] ∈ _group_similar_companies [eW9, fW9] ∧ fW9 ∈ [fW9]
      ∧ normNameOf fW9 = "" ∧ [fW9] = [fW9]) := by
  have h1 : [eW9] ∈ _group_similar_companies [eW9, fW9] := by decide
  have h2 : eW9 ∈ ([eW9] : List Company) := by decide
  have h3 : normNameOf eW9 = "" := by decide
  have h4 : [fW9] ∈ _group_similar_companies [eW9, fW9] := by decide
  have h5 : fW9 ∈ ([fW9] : List Company) := by decide
  have h6 : normNameOf fW9 = "" := by decide
  exact ⟨⟨h1, h2, h3, C9_empty_name_singleton.1 _ _ _ h1 h2 h3⟩,
    ⟨h4, h5, h6, C9_empty_name_singleton.1 _ _ _ h4 h5 h6⟩⟩

/-- C10: deduplicating the empty list yields the empty list with zero
duplicates removed in the statistics, and a single record passes
through unchanged as a singleton group. -/
theorem C10_degenerate_inputs :
    deduplicate_companies [] = []
    ∧ (get_dedup_stats [] []).duplicates_removed = 0
    ∧ ∀ r : Company, deduplicate_companies [r] = [r] :=
  ⟨rfl, rfl, fun _ => rfl⟩

/-- C2: the similarity of any two strings lies in [0, 100]; it is 0 as
soon as either (normalized) name is empty, 100 on exact equality of
nonempty names, and otherwise equals the token-order-insensitive ratio
100 * (1 - levDist / (len1 + len2)) on the sorted-token-rejoined forms,
clamped to [0, 100].  The fuzzy core is the spec-modelled
token_sort_ratio since rapidfuzz is not part of this repository. -/
theorem C2_similarity_contract (a b : String) :
    (0 ≤ _calculate_similarity a b ∧ _calculate_similarity a b ≤ 100)
    ∧ ((a = "" ∨ b = "") → _calculate_similarity a b = 0)
    ∧ (¬(a = "" ∨ b = "") → a = b → _calculate_similarity a b = 100)
    ∧ (¬(a = "" ∨ b = "") → a ≠ b →
        _calculate_similarity a b =
          max 0 (min 100 (100 *
            (1 - (levDist (sortedTokenJoin a) (sortedTokenJoin b) : ℚ) /
              (((sortedTokenJoin a).length + (sortedTokenJoin b).length : Nat) : ℚ))))) := by
  refine ⟨?_, ?_, ?_, ?_⟩
  · by_cases h1 : a = "" ∨ b = ""
    · simp only [_calculate_similarity, if_pos h1]
      norm_num
    · by_cases h2 : a = b
      · simp only [_calculate_similarity, if_neg h1, if_pos h2]
        norm_num
      · simp only [_calculate_similarity, if_neg h1, if_neg h2,
          token_sort_ratio_eq_clamped]
        constructor
        · exact le_max_left 0 _
        · exact max_le (by norm_num) (min_le_left _ _)
  · intro h1
    simp only [_calculate_similarity, if_pos h1]
  · intro h1 h2
    simp only [_calculate_similarity, if_neg h1, if_pos h2]
  · intro h1 h2
    simp only [_calculate_similarity, if_neg h1, if_neg h2]
    exact token_sort_ratio_eq_clamped a b

/-- Witness for C2 evaluating the contract at concrete inputs: the
empty-name rule at ("", "x"), the equality rule at ("abc", "abc") and
the formula branch at the 20- and 16-letter names, whose score is
800/9. -/
theorem C2_similarity_contract_witness :
    _calculate_similarity "" "x" = 0
    ∧ _calculate_similarity "abc" "abc" = 100
    ∧ _calculate_similarity "aaaaaaaaaaaaaaaaaaaa" "aaaaaaaaaaaaaaaa" =
        max 0 (min 100 (100 *
          (1 - (levDist (sortedTokenJoin "aaaaaaaaaaaaaaaaaaaa")
              (sortedTokenJoin "aaaaaaaaaaaaaaaa") : ℚ) /
            (((sortedTokenJoin "aaaaaaaaaaaaaaaaaaaa").length +
              (sortedTokenJoin "aaaaaaaaaaaaaaaa").length : Nat) : ℚ)))) := by
  refine ⟨(C2_similarity_contract "" "x").2.1 (Or.inl rfl),
    (C2_similarity_contract "abc" "abc").2.2.1 (by decide) rfl,
    (C2_similarity_contract "aaaaaaaaaaaaaaaaaaaa" "aaaaaaaaaaaaaaaa").2.2.2
      (by decide) (by decide)⟩

/-! Concrete records for the source-priority example of spec.md
section 8: a TechCrunch record with an industry and an SEC record with
an empty industry. -/

def tcFoo : Company :=
  { blankCompany with
    company_name := some "Foo", source := some "TechCrunch",
    industry := some "X" }

def secFoo : Company :=
  { blankCompany with
    company_name := some "Foo Inc", source := some "SEC Form D",
    industry := some "" }

/-- C5: the merged record's company_name is always the company_name of
the group's highest-priority constituent — the earliest record in
original order among those of minimal priority value (SEC Form D = 0,
TechCrunch = 1, VentureBeat = 2, CB Insights = 3, PitchBook = 4,
Founder Collective Portfolio = 5, anything else 999); the name is never
synthesized.  In particular merging the Foo/TechCrunch record with the
Foo Inc/SEC record yields company_name Foo Inc and industry X. -/
theorem C5_name_from_highest_priority :
    (∀ (g : List Company) (m : Company), _merge_company_group g = some m →
        ∃ pre c post, g = pre ++ c :: post ∧ m.company_name = c.company_name ∧
          (∀ d ∈ g, priorityOf c ≤ priorityOf d) ∧
          ∀ d ∈ pre, priorityOf c < priorityOf d)
    ∧ source_priority "SEC Form D" = 0 ∧ source_priority "TechCrunch" = 1
    ∧ source_priority "VentureBeat" = 2 ∧ source_priority "CB Insights" = 3
    ∧ source_priority "PitchBook" = 4
    ∧ source_priority "Founder Collective Portfolio" = 5
    ∧ (∀ s, s ≠ "SEC Form D" → s ≠ "TechCrunch" → s ≠ "VentureBeat" →
        s ≠ "CB Insights" → s ≠ "PitchBook" → s ≠ "Founder Collective Portfolio" →
        source_priority s = 999)
    ∧ (_merge_company_group [tcFoo, secFoo]).map Company.company_name =
        some (some "Foo Inc")
    ∧ (_merge_company_group [tcFoo, secFoo]).map Company.industry = some (some "X") := by
  refine ⟨?_, by decide, by decide, by decide, by decide, by decide, by decide,
    ?_, by decide, by decide⟩
  · intro g m hm
    match g with
    | [] => simp [_merge_company_group] at hm
    | [c] =>
        rcases Option.some.inj hm with rfl
        exact ⟨[], c, [], rfl, rfl, by
          intro d hd
          rcases List.mem_singleton.mp hd with rfl
          exact le_rfl, by simp⟩
    | a :: b :: rest =>
        obtain ⟨first, others, hsort, heq⟩ := merge_multi_eq a b rest
        rw [heq] at hm
        rcases Option.some.inj hm with rfl
        obtain ⟨pre, post, hdec, hmin, hpre⟩ := isort_head_first_min _ _ _ hsort
        exact ⟨pre, first, post, hdec, by rw [foldl_mergeStep_company_name], hmin, hpre⟩
  · intro s h1 h2 h3 h4 h5 h6
    simp [source_priority, h1, h2, h3, h4, h5, h6]

/-- Witness for C5 applying its universal part to the concrete Foo
group: the SEC record is the unique minimal-priority constituent, at
index 1 behind the TechCrunch record. -/
theorem C5_name_from_highest_priority_witness :
    ∃ pre c post, [tcFoo, secFoo] = pre ++ c :: post ∧
      ({ secFoo with
          industry := some "X",
          sources := some ["TechCrunch", "SEC Form D"] } : Company).company_name =
        c.company_name ∧
      (∀ d ∈ [tcFoo, secFoo], priorityOf c ≤ priorityOf d) ∧
      ∀ d ∈ pre, priorityOf c < priorityOf d :=
  C5_name_from_highest_priority.1 [tcFoo, secFoo]
    { secFoo with
      industry := some "X", sources := some ["TechCrunch", "SEC Form D"] }
    (by decide)

/-! Keep-lemmas: a truthy field survives one merge step unchanged. -/

theorem mergeStep_website_keep (m c : Company) (h : strTruthy m.company_website = true) :
    (mergeStep m c).company_website = m.company_website := by simp [mergeStep, h]

theorem mergeStep_description_keep (m c : Company) (h : strTruthy m.description = true) :
    (mergeStep m c).description = m.description := by simp [mergeStep, h]

theorem mergeStep_industry_keep (m c : Company) (h : strTruthy m.industry = true) :
    (mergeStep m c).industry = m.industry := by simp [mergeStep, h]

theorem mergeStep_location_keep (m c : Company) (h : strTruthy m.location = true) :
    (mergeStep m c).location = m.location := by simp [mergeStep, h]

theorem mergeStep_ceo_keep (m c : Company) (h : strTruthy m.ceo_name = true) :
    (mergeStep m c).ceo_name = m.ceo_name := by simp [mergeStep, h]

theorem mergeStep_amount_keep (m c : Company) (h : intTruthy m.funding_amount = true) :
    (mergeStep m c).funding_amount = m.funding_amount := by simp [mergeStep, h]

theorem foldl_website_keep :
    ∀ (l : List Company) (m : Company), strTruthy m.company_website = true →
      (l.foldl mergeStep m).company_website = m.company_website := by
  intro l
  induction l with
  | nil => intro m _; rfl
  | cons c cs ih =>
      intro m hm
      have hk := mergeStep_website_keep m c hm
      rw [List.foldl_cons, ih _ (by rw [hk]; exact hm), hk]

theorem foldl_description_keep :
    ∀ (l : List Company) (m : Company), strTruthy m.description = true →
      (l.foldl mergeStep m).description = m.description := by
  intro l
  induction l with
  | nil => intro m _; rfl
  | cons c cs ih =>
      intro m hm
      have hk := mergeStep_description_keep m c hm
      rw [List.foldl_cons, ih _ (by rw [hk]; exact hm), hk]

theorem foldl_industry_keep :
    ∀ (l : List Company) (m : Company), strTruthy m.industry = true →
      (l.foldl mergeStep m).industry = m.industry := by
  intro l
  induction l with
  | nil => intro m _; rfl
  | cons c cs ih =>
      intro m hm
      have hk := mergeStep_industry_keep m c hm
      rw [List.foldl_cons, ih _ (by rw [hk]; exact hm), hk]

theorem foldl_location_keep :
    ∀ (l : List Company) (m : Company), strTruthy m.location = true →
      (l.foldl mergeStep m).location = m.location := by
  intro l
  induction l with
  | nil => intro m _; rfl
  | cons c cs ih =>
      intro m hm
      have hk := mergeStep_location_keep m c hm
      rw [List.foldl_cons, ih _ (by rw [hk]; exact hm), hk]

theorem foldl_ceo_keep :
    ∀ (l : List Company) (m : Company), strTruthy m.ceo_name = true →
      (l.foldl mergeStep m).ceo_name = m.ceo_name := by
  intro l
  induction l with
  | nil => intro m _; rfl
  | cons c cs ih =>
      intro m hm
      have hk := mergeStep_ceo_keep m c hm
      rw [List.foldl_cons, ih _ (by rw [hk]; exact hm), hk]

theorem foldl_amount_keep :
    ∀ (l : List Company) (m : Company), intTruthy m.funding_amount = true →
      (l.foldl mergeStep m).funding_amount = m.funding_amount := by
  intro l
  induction l with
  | nil => intro m _; rfl
  | cons c cs ih =>
      intro m hm
      have hk := mergeStep_amount_keep m c hm
      rw [List.foldl_cons, ih _ (by rw [hk]; exact hm), hk]

/-- C6: the merge fold is strictly fill-only-if-missing on
company_website, description, industry, location, ceo_name and
funding_amount (a funding_amount of 0 counts as missing under the
truthy check): one step takes the incoming value exactly when the
current value is falsy and the incoming one truthy, and across a whole
fold a field that is already truthy is never changed — in particular
never replaced by a different value from a lower-priority record. -/
theorem C6_fill_only_if_missing :
    (∀ m c : Company,
        (mergeStep m c).company_website =
          (if strTruthy m.company_website then m.company_website
           else if strTruthy c.company_website then c.company_website
           else m.company_website)
        ∧ (mergeStep m c).description =
          (if strTruthy m.description then m.description
           else if strTruthy c.description then c.description else m.description)
        ∧ (mergeStep m c).industry =
          (if strTruthy m.industry then m.industry
           else if strTruthy c.industry then c.industry else m.industry)
        ∧ (mergeStep m c).location =
          (if strTruthy m.location then m.location
           else if strTruthy c.location then c.location else m.location)
        ∧ (mergeStep m c).ceo_name =
          (if strTruthy m.ceo_name then m.ceo_name
           else if strTruthy c.ceo_name then c.ceo_name else m.ceo_name)
        ∧ (mergeStep m c).funding_amount =
          (if intTruthy m.funding_amount then m.funding_amount
           else if intTruthy c.funding_amount then c.funding_amount
           else m.funding_amount))
    ∧ (∀ (l : List Company) (m : Company),
        (strTruthy m.company_website = true →
          (l.foldl mergeStep m).company_website = m.company_website)
        ∧ (strTruthy m.description = true →
          (l.foldl mergeStep m).description = m.description)
        ∧ (strTruthy m.industry = true →
          (l.foldl mergeStep m).industry = m.industry)
        ∧ (strTruthy m.location = true →
          (l.foldl mergeStep m).location = m.location)
        ∧ (strTruthy m.ceo_name = true →
          (l.foldl mergeStep m).ceo_name = m.ceo_name)
        ∧ (intTruthy m.funding_amount = true →
          (l.foldl mergeStep m).funding_amount = m.funding_amount)) := by
  constructor
  · intro m c
    refine ⟨?_, ?_, ?_, ?_, ?_, ?_⟩
    · cases hm : strTruthy m.company_website <;>
        cases hc : strTruthy c.company_website <;> simp [mergeStep, hm, hc]
    · cases hm : strTruthy m.description <;>
        cases hc : strTruthy c.description <;> simp [mergeStep, hm, hc]
    · cases hm : strTruthy m.industry <;>
        cases hc : strTruthy c.industry <;> simp [mergeStep, hm, hc]
    · cases hm : strTruthy m.location <;>
        cases hc : strTruthy c.location <;> simp [mergeStep, hm, hc]
    · cases hm : strTruthy m.ceo_name <;>
        cases hc : strTruthy c.ceo_name <;> simp [mergeStep, hm, hc]
    · cases hm : intTruthy m.funding_amount <;>
        cases hc : intTruthy c.funding_amount <;> simp [mergeStep, hm, hc]
  · intro l m
    exact ⟨foldl_website_keep l m, foldl_description_keep l m, foldl_industry_keep l m,
      foldl_location_keep l m, foldl_ceo_keep l m, foldl_amount_keep l m⟩

def mW6 : Company :=
  { blankCompany with
    company_website := some "w", description := some "d", industry := some "i",
    location := some "l", ceo_name := some "c", funding_amount := some 7 }

def cW6 : Company :=
  { blankCompany with
    company_website := some "w2", description := some "d2", industry := some "i2",
    location := some "l2", ceo_name := some "c2", funding_amount := some 9 }

/-- Witness for C6: a fully populated record folded with a record
carrying different values keeps every one of the six fields. -/
theorem C6_fill_only_if_missing_witness :
    ([cW6].foldl mergeStep mW6).company_website = mW6.company_website
    ∧ ([cW6].foldl mergeStep mW6).description = mW6.description
    ∧ ([cW6].foldl mergeStep mW6).industry = mW6.industry
    ∧ ([cW6].foldl mergeStep mW6).location = mW6.location
    ∧ ([cW6].foldl mergeStep mW6).ceo_name = mW6.ceo_name
    ∧ ([cW6].foldl mergeStep mW6).funding_amount = mW6.funding_amount := by
  have h := C6_fill_only_if_missing.2 [cW6] mW6
  exact ⟨h.1 (by decide), h.2.1 (by decide), h.2.2.1 (by decide),
    h.2.2.2.1 (by decide), h.2.2.2.2.1 (by decide), h.2.2.2.2.2 (by decide)⟩

def mC7 : Company := { blankCompany with funding_round := some "Equity" }

def cC7 : Company := { blankCompany with funding_round := some "" }

/-- Counterexample to C7 as stated: with current merged value Equity
and candidate value the empty string — which is neither Unknown nor
absent, so the claimed rule demands replacement — the code keeps
Equity, because the empty string is falsy and already fails the outer
truthiness guard. -/
theorem C7_counterexample :
    ¬((mergeStep mC7 cC7).funding_round =
      (if (mC7.funding_round = some "Unknown" ∨ mC7.funding_round = some "Equity" ∨
            mC7.funding_round = none) ∧
          ¬(cC7.funding_round = some "Unknown" ∨ cC7.funding_round = none)
       then cC7.funding_round else mC7.funding_round)) := by decide

/-- C7 amended: the merged funding_round is replaced by the candidate
exactly when the current value is one of Unknown, Equity or absent and
the candidate is none of Unknown, absent or the empty string (the
empty string is falsy in Python and fails the outer guard).
Concretely, Equity is upgraded to Series A, while Series A is not
replaced by Series B. -/
theorem C7_amended_round_rule :
    (∀ m c : Company,
        (mergeStep m c).funding_round =
          (if (m.funding_round = some "Unknown" ∨ m.funding_round = some "Equity" ∨
                m.funding_round = none) ∧
              ¬(c.funding_round = some "Unknown" ∨ c.funding_round = none ∨
                c.funding_round = some "")
           then c.funding_round else m.funding_round))
    ∧ (mergeStep { blankCompany with funding_round := some "Equity" }
        { blankCompany with funding_round := some "Series A" }).funding_round =
        some "Series A"
    ∧ (mergeStep { blankCompany with funding_round := some "Series A" }
        { blankCompany with funding_round := some "Series B" }).funding_round =
        some "Series A" := by
  refine ⟨?_, by decide, by decide⟩
  intro m c
  show (if (m.funding_round = some "Unknown" ∨ m.funding_round = some "Equity" ∨
        m.funding_round = none) ∧ strTruthy c.funding_round then
      if c.funding_round ≠ some "Unknown" ∧ c.funding_round ≠ none
      then c.funding_round else m.funding_round
    else m.funding_round) = _
  rcases hc : c.funding_round with _ | s
  · simp [strTruthy]
  · by_cases hs : s = ""
    · subst hs
      simp [strTruthy]
    · by_cases hu : s = "Unknown"
      · subst hu
        simp [strTruthy]
      · by_cases hm : m.funding_round = some "Unknown" ∨ m.funding_round = some "Equity" ∨
            m.funding_round = none
        · rw [if_pos ⟨hm, by simp [strTruthy, hs]⟩,
            if_pos ⟨by simp [hu], by simp⟩,
            if_pos ⟨hm, by simp [hs, hu]⟩]
        · rw [if_neg (fun h => hm h.1), if_neg (fun h => hm h.1)]

def secDup8 : Company :=
  { blankCompany with
    company_name := some "x", source := some "SEC Form D",
    investors := ["A", "A"] }

def tcB8 : Company :=
  { blankCompany with
    company_name := some "x", source := some "TechCrunch", investors := ["B"] }

/-- Counterexample to C8 as stated: the highest-priority record's own
investors list is copied verbatim, so merging a record with investors
[A, A] and one with [B] yields [A, A, B] — a list with a duplicate,
not the duplicate-free union [A, B]: only the later records' investors
pass the containment check. -/
theorem C8_counterexample :
    (_merge_company_group [secDup8, tcB8]).map Company.investors = some ["A", "A", "B"]
    ∧ ¬(["A", "A", "B"] : List String).Nodup
    ∧ ["A", "A", "B"] ≠
        dedupFirst (((isortByPriority [secDup8, tcB8]).map Company.investors).flatten) := by
  refine ⟨by decide, by decide, by decide⟩

def abRec8 : Company :=
  { blankCompany with
    company_name := some "x", source := some "SEC Form D",
    investors := ["A", "B"] }

def bcRec8 : Company :=
  { blankCompany with
    company_name := some "x", source := some "TechCrunch",
    investors := ["B", "C"] }

/-- C8 amended: for a multi-record group whose highest-priority
record's own investors list is duplicate-free and whose records carry
no empty-string investor, the merged investors list is the
first-appearance-ordered duplicate-free union (case-sensitive) of the
constituents' lists taken in priority-sorted fold order.  In
particular [A, B] then [B, C] merge to [A, B, C]. -/
theorem C8_amended_investor_union :
    (∀ (a b : Company) (rest : List Company) (first : Company)
        (others : List Company) (m : Company),
        isortByPriority (a :: b :: rest) = first :: others →
        first.investors.Nodup →
        (∀ c ∈ a :: b :: rest, "" ∉ c.investors) →
        _merge_company_group (a :: b :: rest) = some m →
        m.investors = dedupFirst (((first :: others).map Company.investors).flatten))
    ∧ (_merge_company_group [abRec8, bcRec8]).map Company.investors =
        some ["A", "B", "C"] := by
  refine ⟨?_, by decide⟩
  intro a b rest first others m hsort hnd hemp hm
  obtain ⟨f2, o2, hsort2, heq⟩ := merge_multi_eq a b rest
  rw [hsort] at hsort2
  rcases List.cons.inj hsort2 with ⟨rfl, rfl⟩
  rw [heq] at hm
  rcases Option.some.inj hm with rfl
  rw [foldl_mergeStep_investors]
  show addInvestors first.investors ((others.map Company.investors).flatten) = _
  have hfirst : "" ∉ first.investors := by
    refine hemp first ?_
    rw [← mem_isortByPriority, hsort]
    exact List.mem_cons_self _ _
  have hflat : "" ∉ (others.map Company.investors).flatten := by
    intro hmem
    obtain ⟨l, hl, hin⟩ := List.mem_flatten.mp hmem
    obtain ⟨c, hc, rfl⟩ := List.mem_map.mp hl
    have hcg : c ∈ a :: b :: rest := by
      rw [← mem_isortByPriority, hsort]
      exact List.mem_cons_of_mem _ hc
    exact hemp c hcg hin
  rw [addInvestors_eq_dedupFirst _ _ hnd hfirst hflat, List.map_cons,
    List.flatten_cons]

/-- Witness for C8 applying the amended union law to the concrete
[A, B] / [B, C] group, whose merged investors are [A, B, C]. -/
theorem C8_amended_investor_union_witness :
    ({ abRec8 with
        investors := ["A", "B", "C"],
        sources := some ["SEC Form D", "TechCrunch"] } : Company).investors =
      dedupFirst ((([abRec8, bcRec8].map Company.investors)).flatten) :=
  C8_amended_investor_union.1 abRec8 bcRec8 [] abRec8 [bcRec8]
    { abRec8 with
      investors := ["A", "B", "C"], sources := some ["SEC Form D", "TechCrunch"] }
    (by decide) (by decide) (by decide) (by decide)

theorem mem_all_sources (g : List Company) (s : String) :
    s ∈ all_sources g ↔ (s ≠ "" ∧ ∃ c ∈ g, c.source = some s) := by
  unfold all_sources
  rw [mem_dedupFirst, List.mem_filterMap]
  constructor
  · rintro ⟨c, hc, hfc⟩
    by_cases ht : strTruthy c.source = true
    · rw [if_pos ht] at hfc
      rcases hcs : c.source with _ | u
      · rw [hcs] at ht
        simp [strTruthy] at ht
      · rw [hcs] at ht hfc
        simp only [Option.getD_some] at hfc
        rcases Option.some.inj hfc with rfl
        refine ⟨?_, c, hc, hcs⟩
        simpa [strTruthy] using ht
    · rw [if_neg ht] at hfc
      cases hfc
  · rintro ⟨hs, c, hc, hcs⟩
    refine ⟨c, hc, ?_⟩
    have ht : strTruthy c.source = true := by
      rw [hcs]
      simpa [strTruthy] using hs
    rw [if_pos ht, hcs]
    rfl

def tcAaaa : Company :=
  { blankCompany with company_name := some "aaaa", source := some "TechCrunch" }

/-- Counterexample to C3 as stated: two TechCrunch records with the
same name fall into one two-record group, whose merged record carries
the sources set of size 1 — yet it is merged, not a singleton
pass-through, refuting size 1 implies unmerged. -/
theorem C3_counterexample :
    _group_similar_companies [tcAaaa, tcAaaa] = [[tcAaaa, tcAaaa]]
    ∧ deduplicate_companies [tcAaaa, tcAaaa] =
        [{ tcAaaa with sources := some ["TechCrunch"] }]
    ∧ (({ tcAaaa with sources := some ["TechCrunch"] } : Company).sources.getD
        []).length = 1
    ∧ ([tcAaaa, tcAaaa] : List Company).length ≠ 1 :=
  ⟨by decide, by decide, by decide, by decide⟩

/-- C3 amended: a merged record from a multi-record group carries as
sources exactly the set of non-empty source values of the group's
constituents (falsy sources are filtered out by the code); and a
sources set of size 1 implies the record came from a singleton group
or every non-empty source value in its group is the same single
source. -/
theorem C3_amended_sources_set :
    (∀ (g : List Company) (m : Company), 2 ≤ g.length →
        _merge_company_group g = some m →
        m.sources = some (all_sources g) ∧
        ∀ s, s ∈ all_sources g ↔ (s ≠ "" ∧ ∃ c ∈ g, c.source = some s))
    ∧ (∀ (g : List Company) (m : Company), _merge_company_group g = some m →
        (m.sources.getD []).length = 1 →
        g.length = 1 ∨ ∃ t, ∀ c ∈ g, ∀ u, c.source = some u → u ≠ "" → u = t) := by
  constructor
  · intro g m hlen hm
    match g, hlen with
    | a :: b :: rest, _ =>
        exact ⟨merge_multi_sources a b rest m hm, fun s => mem_all_sources _ s⟩
  · intro g m hm hlen1
    match g with
    | [] => simp [_merge_company_group] at hm
    | [c] => exact Or.inl rfl
    | a :: b :: rest =>
        refine Or.inr ?_
        rw [merge_multi_sources a b rest m hm] at hlen1
        simp only [Option.getD_some] at hlen1
        obtain ⟨t, ht⟩ := List.length_eq_one.mp hlen1
        refine ⟨t, ?_⟩
        intro c hc u hu hne
        have hmem : u ∈ all_sources (a :: b :: rest) :=
          (mem_all_sources _ u).mpr ⟨hne, c, hc, hu⟩
        rw [ht] at hmem
        simpa using hmem

def secAaaa : Company :=
  { blankCompany with company_name := some "aaaa", source := some "SEC Form D" }

/-- Witness for C3 amended: the TechCrunch/SEC pair of records with
identical names merges to a record whose sources are exactly the two
source strings; and the size-1 sources set of the two-TechCrunch merge
satisfies the amended disjunction. -/
theorem C3_amended_sources_set_witness :
    (({ secAaaa with
        sources := some ["TechCrunch", "SEC Form D"] } : Company).sources =
          some (all_sources [tcAaaa, secAaaa])
      ∧ ("TechCrunch" ∈ all_sources [tcAaaa, secAaaa] ↔
          ("TechCrunch" ≠ "" ∧ ∃ c ∈ [tcAaaa, secAaaa],
            c.source = some "TechCrunch")))
    ∧ (([tcAaaa, tcAaaa] : List Company).length = 1 ∨
        ∃ t, ∀ c ∈ [tcAaaa, tcAaaa], ∀ u, c.source = some u → u ≠ "" → u = t) := by
  have h1 := C3_amended_sources_set.1 [tcAaaa, secAaaa]
    { secAaaa with sources := some ["TechCrunch", "SEC Form D"] }
    (by decide) (by decide)
  have h2 := C3_amended_sources_set.2 [tcAaaa, tcAaaa]
    { tcAaaa with sources := some ["TechCrunch"] } (by decide) (by decide)
  exact ⟨⟨h1.1, h1.2 "TechCrunch"⟩, h2⟩

theorem all_sources_singleton_le (c : Company) : (all_sources [c]).length ≤ 1 := by
  unfold all_sources
  by_cases ht : strTruthy c.source = true
  · rw [List.filterMap_cons_some (by rw [if_pos ht]), List.filterMap_nil,
      dedupFirst_cons]
    simp [dedupFirst_nil]
  · rw [List.filterMap_cons_none (by rw [if_neg ht]), List.filterMap_nil]
    simp [dedupFirst_nil]

theorem count_merged_sources :
    ∀ (gs : List (List Company)),
      (∀ g ∈ gs, g ≠ []) →
      (∀ g ∈ gs, ∀ c : Company, g = [c] → c.sources = none) →
      ((gs.filterMap _merge_company_group).filter
          (fun c => decide (1 < (c.sources.getD []).length))).length
        = (gs.filter (fun g => decide (1 < (all_sources g).length))).length := by
  intro gs
  induction gs with
  | nil => intro _ _; rfl
  | cons g gs ih =>
      intro h1 h2
      have hne : g ≠ [] := h1 g (List.mem_cons_self _ _)
      have ih' := ih (fun g' hg' => h1 g' (List.mem_cons_of_mem _ hg'))
        (fun g' hg' => h2 g' (List.mem_cons_of_mem _ hg'))
      rw [← List.countP_eq_length_filter, ← List.countP_eq_length_filter] at ih' ⊢
      match g, hne with
      | [c], _ =>
          have hsrc : c.sources = none := h2 _ (List.mem_cons_self _ _) c rfl
          rw [List.filterMap_cons_some (rfl : _merge_company_group [c] = some c)]
          simp only [List.countP_cons]
          have e1 : (decide (1 < ((c.sources.getD ([] : List String)).length))) = false := by
            rw [hsrc]
            rfl
          have e2 : (decide (1 < (all_sources [c]).length)) = false :=
            decide_eq_false (not_lt.mpr (all_sources_singleton_le c))
          rw [e1, e2, ih']
      | a :: b :: rest, _ =>
          obtain ⟨first, others, hsort, heq⟩ := merge_multi_eq a b rest
          rw [List.filterMap_cons_some heq]
          simp only [List.countP_cons]
          have hgd : ((others.foldl mergeStep
              { first with
                sources := some (all_sources (a :: b :: rest)) }).sources.getD
              ([] : List String))
              = all_sources (a :: b :: rest) := by
            rw [foldl_mergeStep_sources]
            rfl
          rw [hgd, ih']

/-- Counterexample to C4 as stated: for two same-name TechCrunch
records, grouping yields one multi-record group (M = 1) and no
singleton groups, yet companies_with_merged_sources is 0, because the
merged sources set collapses to the single source TechCrunch. -/
theorem C4_counterexample :
    ((_group_similar_companies [tcAaaa, tcAaaa]).filter
        (fun g => decide (2 ≤ g.length))).length = 1
    ∧ (get_dedup_stats [tcAaaa, tcAaaa]
        (deduplicate_companies [tcAaaa, tcAaaa])).companies_with_merged_sources = 0
    ∧ (0 : Nat) ≠ 1 :=
  ⟨by decide, by decide, by decide⟩

/-- C4 amended: for raw inputs (no pre-existing sources key),
companies_with_merged_sources equals the number of groups whose
constituents carry more than one distinct non-empty source value —
which coincides with the number of multi-record groups only when every
multi-record group spans at least two distinct sources. -/
theorem C4_amended_merged_count (companies : List Company)
    (hraw : ∀ c ∈ companies, c.sources = none) :
    (get_dedup_stats companies
        (deduplicate_companies companies)).companies_with_merged_sources
      = ((_group_similar_companies companies).filter
          (fun g => decide (1 < (all_sources g).length))).length := by
  cases companies with
  | nil => rfl
  | cons a rest =>
      show (((_group_similar_companies (a :: rest)).filterMap
          _merge_company_group).filter
          (fun c => decide (1 < (c.sources.getD []).length))).length = _
      refine count_merged_sources _ ?_ ?_
      · intro g hg
        exact groupLoopAux_ne_nil _ _ g hg
      · intro g hg c hgc
        obtain ⟨n, hn⟩ := groupLoopAux_mem_pairs _ _ g c hg
          (by rw [hgc]; exact List.mem_cons_self _ _)
        obtain ⟨c', hc', heqp⟩ := List.mem_map.mp hn
        have hcc : c' = c := congrArg Prod.snd heqp
        exact hcc ▸ hraw c' hc'

def tcBbbb : Company :=
  { blankCompany with company_name := some "bbbb", source := some "TechCrunch" }

/-- Witness for C4 amended: a TechCrunch/SEC pair sharing a name plus
an unrelated singleton; one group spans two distinct sources, and the
statistics report exactly one company with merged sources. -/
theorem C4_amended_merged_count_witness :
    (∀ c ∈ [tcAaaa, secAaaa, tcBbbb], c.sources = none)
    ∧ (get_dedup_stats [tcAaaa, secAaaa, tcBbbb]
        (deduplicate_companies
          [tcAaaa, secAaaa, tcBbbb])).companies_with_merged_sources
      = ((_group_similar_companies [tcAaaa, secAaaa, tcBbbb]).filter
          (fun g => decide (1 < (all_sources g).length))).length :=
  ⟨by decide, C4_amended_merged_count _ (by decide)⟩

end Dedup
